import Mathlib

/-!
Verification of the augmentation and batch-assembly pipeline of the
imagenette/imagewoof training script (`train.py`).

Images are modelled as a structure carrying the two spatial dimensions and a
pixel map; 8-bit channel values and the floating-point values appearing after
blending/normalization are both modelled as rationals.  Randomness (numpy and
python `random` draws, the joblib thread-completion order) is passed in as
explicit parameters.  Fallible operations (image decoding, the fuel-bounded
between-class partner search) return `Except`/`Option`.
-/

namespace ImagenetteTrain

/-- An RGB pixel grid: height, width, and a channel-indexed pixel map.
Models the numpy arrays of shape `(h, w, 3)` flowing through the pipeline. -/
structure Img where
  h : ℕ
  w : ℕ
  pix : ℕ → ℕ → Fin 3 → ℚ

instance : Inhabited Img := ⟨⟨0, 0, fun _ _ _ => 0⟩⟩

/-- `A.Resize(newH, newW)`: output dimensions are exactly the target; the
resampled pixel at `(y, x)` is taken from the proportionally scaled source
coordinate. -/
def resize (newH newW : ℕ) (img : Img) : Img :=
  { h := newH, w := newW,
    pix := fun y x c => img.pix (y * img.h / newH) (x * img.w / newW) c }

/-- `_to_categorical(index, num_classes)`: `np.zeros((num_classes,))` with a
single `1` written at `index`. -/
def toCategorical (index num_classes : ℕ) : List ℚ :=
  (List.range num_classes).map (fun i => if i = index then 1 else 0)

/-- `np.random.uniform(lo, hi)` as a function of a unit draw `u ∈ [0, 1)`. -/
def uniformDraw (lo hi u : ℚ) : ℚ := lo + u * (hi - lo)

/-- The Between-class Learning mixing ratio `r = np.random.uniform(0.5, 1.0)`
of `_generate_instance`. -/
def mixRatio (u : ℚ) : ℚ := uniformDraw (1/2) 1 u

/-- The label mixing `c_i * r + c_t * (1 - r)` of `_generate_instance`,
elementwise over the two one-hot vectors. -/
def mixLabels (r : ℚ) (ci ct : List ℚ) : List ℚ :=
  List.zipWith (fun a b => a * r + b * (1 - r)) ci ct

/-- The image mixing `X_i * r + X_t * (1 - r)` of `_generate_instance`,
elementwise (numpy broadcast over equal-shaped arrays). -/
def mixImgs (r : ℚ) (a b : Img) : Img :=
  { h := a.h, w := a.w,
    pix := fun y x c => a.pix y x c * r + b.pix y x c * (1 - r) }

/-- The index folding of `cv2.BORDER_REFLECT_101` used by the padding stage:
coordinates outside `[0, n)` are reflected about the edge pixels. -/
def reflect101 (n : ℕ) (i : ℤ) : ℕ :=
  if 1 < n then
    let p : ℤ := 2 * ((n : ℤ) - 1)
    let j := i.emod p
    (if j < (n : ℤ) then j else p - j).toNat
  else 0

/-- `A.PadIfNeeded(minH, minW)`: grow each dimension to at least the minimum,
splitting the padding evenly and filling the border by reflection. -/
def padIfNeeded (minH minW : ℕ) (img : Img) : Img :=
  { h := max img.h minH, w := max img.w minW,
    pix := fun y x c =>
      img.pix (reflect101 img.h ((y : ℤ) - ((minH - img.h) / 2 : ℕ)))
              (reflect101 img.w ((x : ℤ) - ((minW - img.w) / 2 : ℕ))) c }

/-- A plain crop of a `ch × cw` window whose top-left corner is `(y0, x0)`. -/
def crop (y0 x0 ch cw : ℕ) (img : Img) : Img :=
  { h := ch, w := cw, pix := fun y x c => img.pix (y0 + y) (x0 + x) c }

/-- `A.RandomSizedCrop((265, 412), 331, 331)`: crop a random square of side
`s` at the random position `(y0, x0)` and resize it to the target size. -/
def randomSizedCrop (s y0 x0 targetH targetW : ℕ) (img : Img) : Img :=
  resize targetH targetW (crop y0 x0 s s img)

/-- `A.HorizontalFlip`: mirror the pixel columns. -/
def hflip (img : Img) : Img :=
  { img with pix := fun y x c => img.pix y (img.w - 1 - x) c }

/-- The training-mode `aug1` pipeline of `_generate`:
`Resize(331,331)` → `PadIfNeeded(412,412)` → AutoAugment policy →
`RandomSizedCrop((265,412),331,331)` → optional `HorizontalFlip`.
`pol` is the randomly drawn policy transform (`_create_autoaugment()` with
all of its per-call randomness already fixed); `s`, `y0`, `x0` are the crop
draws and `flip` the coin of `HorizontalFlip`. -/
def aug1Train (pol : Img → Img) (s y0 x0 : ℕ) (flip : Bool) (img : Img) : Img :=
  let resized := resize 331 331 img
  let padded := padIfNeeded 412 412 resized
  let policied := pol padded
  let cropped := randomSizedCrop s y0 x0 331 331 policied
  if flip then hflip cropped else cropped

/-- The evaluation-mode `aug1` pipeline of `_generate`: `Resize(331,331)`
only. -/
def aug1Eval (img : Img) : Img := resize 331 331 img

/-- `A.Normalize(mean=0.5, std=0.5)` on one channel value:
`(v / max_pixel_value - mean) / std` with `max_pixel_value = 255`. -/
def normalizePix (v : ℚ) : ℚ := (v / 255 - 1/2) / (1/2)

/-- `A.Normalize(mean=0.5, std=0.5)` applied to every channel of every
pixel. -/
def normalizeImg (img : Img) : Img :=
  { img with pix := fun y x c => normalizePix (img.pix y x c) }

/-- One cutout hole `(x1, y1, x2, y2)` as produced by `A.Cutout.get_params`
for `max_h_size = max_w_size = 16`: the box `[c - 8, c + 8)` around the
uniformly drawn center `(cy, cx)`, clipped to the image bounds. -/
structure Hole where
  x1 : ℕ
  y1 : ℕ
  x2 : ℕ
  y2 : ℕ

/-- `A.Cutout.get_params` for a single hole of maximal size 16×16:
`y1 = clip(cy - 8, 0, h)`, `y2 = clip(cy + 8, 0, h)` and likewise for `x`
(natural subtraction performs the lower clip). -/
def cutoutHole (h w cy cx : ℕ) : Hole :=
  { y1 := min (cy - 8) h, y2 := min (cy + 8) h,
    x1 := min (cx - 8) w, x2 := min (cx + 8) w }

/-- Membership of a pixel coordinate in a cutout hole. -/
def inHole (hole : Hole) (y x : ℕ) : Prop :=
  hole.y1 ≤ y ∧ y < hole.y2 ∧ hole.x1 ≤ x ∧ x < hole.x2

instance (hole : Hole) (y x : ℕ) : Decidable (inHole hole y x) := by
  unfold inHole; infer_instance

/-- `F.cutout`: set every channel of every pixel inside the hole to the fill
value 0. -/
def cutoutImg (hole : Hole) (img : Img) : Img :=
  { img with pix := fun y x c => if inHole hole y x then 0 else img.pix y x c }

/-- The training-mode `aug2` pipeline of `_generate`:
`A.Normalize(mean=0.5, std=0.5)` followed by
`A.Cutout(num_holes=1, max_h_size=16, max_w_size=16)`.  The cutout transform
keeps its albumentations default probability `p = 0.5`, so it fires only when
the unit draw `u` is below `1/2`; `(cy, cx)` is the drawn hole center. -/
def aug2Train (u : ℚ) (cy cx : ℕ) (img : Img) : Img :=
  let normed := normalizeImg img
  if u < 1/2 then cutoutImg (cutoutHole img.h img.w cy cx) normed else normed

/-- The evaluation-mode `aug2` pipeline of `_generate`:
`A.Normalize(mean=0.5, std=0.5)` only. -/
def aug2Eval (img : Img) : Img := normalizeImg img

/-- `Solarize.apply`: `threshold = 256 - mag * 256 / 9`. -/
def solarizeThreshold (mag : ℚ) : ℚ := 256 - mag * 256 / 9

/-- The per-channel lookup applied by `PIL.ImageOps.solarize`: values below
the threshold are kept, values at or above it are inverted to `255 - v`. -/
def solarizeLut (t v : ℚ) : ℚ := if v < t then v else 255 - v

/-- `Solarize.apply` on a whole image: the lookup applied to every channel of
every pixel. -/
def solarizeOp (mag : ℚ) (img : Img) : Img :=
  { img with pix := fun y x c => solarizeLut (solarizeThreshold mag) (img.pix y x c) }

/-- `Affine.apply`: the translation coefficient
`translate_x_mag / 9 * (150 / 331) * np.random.choice([-1, 1])` that is placed
directly into the PIL affine data tuple. -/
def translateCoeff (mag sign : ℚ) : ℚ := mag / 9 * (150 / 331) * sign

/-- The source x-coordinate sampled by `PIL.Image.transform` with
`AFFINE` data `(1, shear_x, translate_x, ...)`: output pixel `(x, y)` reads
input coordinate `1*x + shear_x*y + translate_x`. -/
def affineSrcX (shearX tx x y : ℚ) : ℚ := x + shearX * y + tx

/-! ### Image loading (`_load_image`) -/

/-- The PIL color modes relevant to `_load_image`. -/
inductive PILMode
  | rgb
  | l
  | rgba
  | p
deriving DecidableEq

/-- A decoded source image: its PIL mode tag together with its pixel data. -/
structure SrcImage where
  mode : PILMode
  h : ℕ
  w : ℕ
  pix : ℕ → ℕ → Fin 3 → ℚ

/-- `img.convert('RGB')`: re-tag the image as 3-channel RGB (the channel data
of the converted image is the mode-specific coercion of the original). -/
def convertRGB (img : SrcImage) : SrcImage := { img with mode := PILMode.rgb }

/-- The failure of `PIL.Image.open` on a file that cannot be decoded. -/
inductive LoadError
  | decodeError
deriving DecidableEq

/-- `_load_image(path)`: a file either decodes to a `SrcImage` (`some`) or is
undecodable (`none`, on which `PIL.Image.open` raises).  A decoded image whose
mode is not RGB is converted with `img.convert('RGB')`. -/
def loadImage (file : Option SrcImage) : Except LoadError SrcImage :=
  match file with
  | none => Except.error LoadError.decodeError
  | some img => Except.ok (if img.mode ≠ PILMode.rgb then convertRGB img else img)

/-- Forget the mode tag of a decoded image (`np.asarray(img, dtype=np.uint8)`). -/
def toImg (s : SrcImage) : Img := ⟨s.h, s.w, s.pix⟩

/-! ### Between-class partner search (`_generate_instance`) -/

/-- The redraw loop of `_generate_instance`:
`while True: t = np.random.choice(len(y)); if y[t] != y_i: break`.
`ts k` is the k-th random draw, `fuel` bounds the number of iterations
modelled; `none` means the loop has not exited within `fuel` iterations. -/
def partnerSearch (y : List ℕ) (yi : ℕ) (ts : ℕ → ℕ) : ℕ → ℕ → Option ℕ
  | _, 0 => none
  | k, fuel + 1 =>
      let t := ts k
      if y.getD t 0 ≠ yi then some t else partnerSearch y yi ts (k + 1) fuel

/-! ### Per-sample pipelines (`_generate_instance`) -/

/-- The per-call randomness consumed by one training-mode
`_generate_instance` job: the drawn policy transform, crop, and flip for the
primary image (`pol`, `s`, `y0`, `x0`, `flip`) and for the between-class
partner image (`polT`, ...), the partner redraw stream `ts` with its fuel
bound, the mixing draw `mixU`, and the normalization-stage cutout draws. -/
structure TrainDraws where
  pol : Img → Img
  s : ℕ
  y0 : ℕ
  x0 : ℕ
  flip : Bool
  polT : Img → Img
  sT : ℕ
  y0T : ℕ
  x0T : ℕ
  flipT : Bool
  ts : ℕ → ℕ
  fuel : ℕ
  mixU : ℚ
  cutU : ℚ
  cutCY : ℕ
  cutCX : ℕ

/-- `_generate_instance` with `data_augmentation=False`: load-free evaluation
pipeline on the already-decoded dataset `X`: `aug1` (resize only), one-hot
label, `aug2` (normalize only). -/
def generateInstanceEval (X : List Img) (y : List ℕ) (ncls i : ℕ) : Img × List ℚ :=
  (aug2Eval (aug1Eval (X.getD i default)), toCategorical (y.getD i 0) ncls)

/-- `_generate_instance` with `data_augmentation=True`: augment the primary
sample, find a partner of a different class with the redraw loop, augment it
independently, mix images and labels with ratio `r ~ Uniform(0.5, 1)`, and
run the result through the training `aug2` stage.  `none` when the partner
redraw loop does not exit within the modelled fuel. -/
def generateInstanceTrain (X : List Img) (y : List ℕ) (ncls : ℕ)
    (d : TrainDraws) (i : ℕ) : Option (Img × List ℚ) :=
  let yi := y.getD i 0
  let Xi := aug1Train d.pol d.s d.y0 d.x0 d.flip (X.getD i default)
  let ci := toCategorical yi ncls
  match partnerSearch y yi d.ts 0 d.fuel with
  | none => none
  | some t =>
      let Xt := aug1Train d.polT d.sT d.y0T d.x0T d.flipT (X.getD t default)
      let ct := toCategorical (y.getD t 0) ncls
      let r := mixRatio d.mixU
      some (aug2Train d.cutU d.cutCY d.cutCX (mixImgs r Xi Xt), mixLabels r ci ct)

/-! ### Shuffled index stream (`_generate_shuffled_indices`) -/

/-- One step of the Fisher–Yates shuffle performed by `np.random.shuffle`:
position `i` is swapped with position `c i % (i + 1)`, where `c i` is the
random draw for that step. -/
def fyStep (n : ℕ) (c : ℕ → ℕ) (acc : Equiv.Perm (Fin n)) (i : Fin n) :
    Equiv.Perm (Fin n) :=
  Equiv.swap i ⟨c i.val % (i.val + 1),
    lt_of_lt_of_le (Nat.mod_lt _ (Nat.succ_pos _)) i.isLt⟩ * acc

/-- The permutation realized by one call of `np.random.shuffle` on an array
of length `n`, with `c i` the draw used at position `i`. -/
def fisherYatesPerm (n : ℕ) (c : ℕ → ℕ) : Equiv.Perm (Fin n) :=
  (List.finRange n).reverse.foldl (fyStep n c) 1

/-- The contents of the shared index array of `_generate_shuffled_indices`
after `m` in-place shuffles, starting from `np.arange(n)`.  `c j` supplies
the draws of the j-th shuffle. -/
def arrAfter (n : ℕ) (c : ℕ → ℕ → ℕ) : ℕ → Fin n → ℕ
  | 0 => fun i => (i : ℕ)
  | m + 1 => fun i => arrAfter n c m (fisherYatesPerm n (c m) i)

/-- `_generate_shuffled_indices(n)`: the k-th index yielded by the infinite
generator.  The generator shuffles before every pass, so draw `k` comes from
the array after `k / n + 1` shuffles, at position `k % n`. -/
def generateShuffledIndices (n : ℕ) (c : ℕ → ℕ → ℕ) (k : ℕ) : ℕ :=
  if h : 0 < n then arrAfter n c (k / n + 1) ⟨k % n, Nat.mod_lt k h⟩ else 0

/-- The first `n` indices produced by the stream. -/
def firstIndices (n : ℕ) (c : ℕ → ℕ → ℕ) : List ℕ :=
  (List.range n).map (generateShuffledIndices n c)

/-- The j-th block of `n` consecutive draws starting at position `j * n`. -/
def blockIndices (n : ℕ) (c : ℕ → ℕ → ℕ) (j : ℕ) : List ℕ :=
  (List.range n).map (fun t => generateShuffledIndices n c (j * n + t))

/-! ### The parallel batch assembler (`_generate_batch`) -/

/-- One completion event of the joblib threading pool: the worker holding job
slot `pos` finishes and stores its result into that slot. -/
def execStep (jobs : List (Unit → α)) (slots : List (Option α)) (pos : ℕ) :
    List (Option α) :=
  match jobs[pos]? with
  | some job => slots.set pos (some (job ()))
  | none => slots

/-- `parallel(jobs)` of `_generate_batch`: workers complete in the order
given by `sched`; each completion fills its own job slot; the call returns
the slot contents in job order once every slot is filled, and cannot return
(`none`) while any slot is still empty. -/
def runParallel (jobs : List (Unit → α)) (sched : List ℕ) : Option (List α) :=
  (sched.foldl (execStep jobs) (List.replicate jobs.length none)).mapM id

/-- `_generate_batch`: one delayed job per requested index, run through the
pool, results stacked in job order.  `inst` is the per-sample pipeline and
`sched` the completion order of the workers. -/
def generateBatch (inst : ℕ → α) (batchIndices : List ℕ) (sched : List ℕ) :
    Option (List α) :=
  runParallel (batchIndices.map (fun i => fun _ => inst i)) sched

/-! ### Sequential iteration (`_generate`, `shuffle=False`) -/

/-- The number of dense ranges `range(0, N, B)` walks through per pass,
`⌈N / B⌉`. -/
def numBatchesSeq (N B : ℕ) : ℕ := (N + B - 1) / B

/-- The index list of the j-th batch yielded in sequential mode:
`range(i, min(i + batch_size, len(X)))` for the j-th start `i` of the
endlessly repeating walk `range(0, len(X), batch_size)`. -/
def seqBatchIndices (N B j : ℕ) : List ℕ :=
  let i := j % numBatchesSeq N B * B
  List.range' i (min (i + B) N - i)

/-- The j-th batch yielded by `_generate` in sequential evaluation mode:
the per-sample evaluation pipeline over the j-th dense index range. -/
def seqBatch (X : List Img) (y : List ℕ) (ncls B j : ℕ) : List (Img × List ℚ) :=
  (seqBatchIndices X.length B j).map (generateInstanceEval X y ncls)

/-! ### Shuffled iteration (`_generate`, `shuffle=True`) -/

/-- The accumulation loop of `_generate` in shuffled mode: append the next
stream index to the accumulator; once the accumulator holds `B` indices,
yield it (together with the position after the last consumed draw).  `none`
when no batch is completed within the modelled fuel. -/
def collectBatch (s : ℕ → ℕ) (B : ℕ) : ℕ → List ℕ → ℕ → Option (List ℕ × ℕ)
  | _, _, 0 => none
  | p, acc, fuel + 1 =>
      let acc2 := acc ++ [s p]
      if acc2.length = B then some (acc2, p + 1)
      else collectBatch s B (p + 1) acc2 fuel

/-- The j-th index list yielded by the shuffled-mode accumulation loop over
the infinite index stream `s`. -/
def nthShuffledBatch (s : ℕ → ℕ) (B : ℕ) : ℕ → Option (List ℕ × ℕ)
  | 0 => collectBatch s B 0 [] B
  | j + 1 =>
      match nthShuffledBatch s B j with
      | none => none
      | some (_, p) => collectBatch s B p [] B

/-- The j-th batch yielded by `_generate` in shuffled training mode: the
training per-sample pipeline (with per-index randomness `d`) over the j-th
accumulated index list. -/
def shuffledTrainBatch (X : List Img) (y : List ℕ) (ncls B : ℕ)
    (c : ℕ → ℕ → ℕ) (d : ℕ → TrainDraws) (j : ℕ) :
    Option (List (Img × List ℚ)) :=
  match nthShuffledBatch (generateShuffledIndices X.length c) B j with
  | none => none
  | some (l, _) => l.mapM (fun i => generateInstanceTrain X y ncls (d i) i)

/-! ### Fallible batch assembly (`_load_image` failure propagation) -/

/-- `_generate_instance` in evaluation mode on a dataset of raw files:
the image is loaded with `_load_image` (whose decode failure propagates),
then resized and normalized; the label is one-hot encoded. -/
def generateInstanceEvalE (files : List (Option SrcImage)) (y : List ℕ)
    (ncls i : ℕ) : Except LoadError (Img × List ℚ) :=
  match loadImage (files.getD i none) with
  | Except.error e => Except.error e
  | Except.ok src =>
      Except.ok (aug2Eval (aug1Eval (toImg src)), toCategorical (y.getD i 0) ncls)

/-- `_generate_batch` over raw files: every per-sample job must succeed for
the batch to be returned; any load failure aborts the whole batch call. -/
def generateBatchEvalE (files : List (Option SrcImage)) (y : List ℕ)
    (ncls : ℕ) (batchIndices : List ℕ) : Except LoadError (List (Img × List ℚ)) :=
  batchIndices.mapM (generateInstanceEvalE files y ncls)

/-- A constant-valued image, used as a concrete test input. -/
def constImg (h w : ℕ) (v : ℚ) : Img := ⟨h, w, fun _ _ _ => v⟩

/-! ### Helper lemmas -/

lemma sum_indicator_range (i n : ℕ) :
    ((List.range n).map (fun j => if j = i then (1 : ℚ) else 0)).sum
      = if i < n then 1 else 0 := by
  induction n with
  | zero => simp
  | succ n ih =>
    rw [List.range_succ, List.map_append, List.sum_append, ih]
    simp only [List.map_cons, List.map_nil, List.sum_cons, List.sum_nil]
    split_ifs <;> first | (exfalso; omega) | norm_num

lemma toCategorical_length (i n : ℕ) : (toCategorical i n).length = n := by
  simp [toCategorical]

lemma toCategorical_sum (i n : ℕ) (hi : i < n) : (toCategorical i n).sum = 1 := by
  rw [toCategorical, sum_indicator_range, if_pos hi]

lemma mixLabels_sum (r : ℚ) :
    ∀ (xs ys : List ℚ), xs.length = ys.length →
      (mixLabels r xs ys).sum = r * xs.sum + (1 - r) * ys.sum
  | [], [], _ => by simp [mixLabels]
  | x :: xs, y :: ys, h => by
      have ih := mixLabels_sum r xs ys (by simpa using h)
      simp only [mixLabels, List.zipWith_cons_cons, List.sum_cons] at ih ⊢
      rw [ih]; ring
  | [], _ :: _, h => by simp at h
  | _ :: _, [], h => by simp at h

/-! ### Claim C3 -/

/-- Claim C3 (code bug, evaluated at the failing input): at magnitude 9 with
sign +1, `Affine.apply` places `9/9 * (150/331) = 150/331` directly into the
affine data tuple, so the sampled source coordinate is displaced by
`150/331 < 1` pixel — a sub-pixel shift — whereas an offset of the fraction
`f = m/9 * (150/331)` of the canonical size 331 would be 150 pixels. -/
theorem translate_offset_code_bug :
    translateCoeff 9 1 = 150 / 331 ∧
    translateCoeff 9 1 < 1 ∧
    affineSrcX 0 (translateCoeff 9 1) 10 20 - 10 = 150 / 331 ∧
    (9 : ℚ) / 9 * (150 / 331) * 331 = 150 := by
  refine ⟨?_, ?_, ?_, ?_⟩ <;> norm_num [translateCoeff, affineSrcX]

/-! ### Claim C4 -/

/-- Claim C4 (counterexample): the claim states `t(9) = 256/9 ≈ 28.4`, but
`Solarize.apply` computes `t(9) = 256 - 9*256/9 = 0`. -/
theorem solarize_threshold_nine_counterexample :
    solarizeThreshold 9 = 0 ∧ (256 / 9 : ℚ) ≠ 0 := by
  constructor <;> norm_num [solarizeThreshold]

/-- Claim C4 (amended): the Solarize threshold `t(m) = 256 - m*256/9` is
non-increasing over `m ∈ [0, 9]`, with `t(0) = 256` (a no-op on 8-bit
channel values) and `t(9) = 0` (every channel value inverted); any channel
value `≥ t(m)` is inverted to `255 - value` and any value below the
threshold is kept. -/
theorem solarize_threshold_spec (m m2 v : ℚ)
    (h0 : 0 ≤ m) (h12 : m ≤ m2) (h9 : m2 ≤ 9) (hv0 : 0 ≤ v) (hv : v ≤ 255) :
    solarizeThreshold m2 ≤ solarizeThreshold m ∧
    solarizeThreshold 0 = 256 ∧
    solarizeThreshold 9 = 0 ∧
    solarizeLut (solarizeThreshold 0) v = v ∧
    solarizeLut (solarizeThreshold 9) v = 255 - v ∧
    (solarizeThreshold m ≤ v → solarizeLut (solarizeThreshold m) v = 255 - v) ∧
    (v < solarizeThreshold m → solarizeLut (solarizeThreshold m) v = v) ∧
    ∀ (img : Img) (yy xx : ℕ) (ch : Fin 3),
      (solarizeOp m img).pix yy xx ch
        = solarizeLut (solarizeThreshold m) (img.pix yy xx ch) := by
  refine ⟨?_, ?_, ?_, ?_, ?_, ?_, ?_, ?_⟩
  · unfold solarizeThreshold; linarith
  · norm_num [solarizeThreshold]
  · norm_num [solarizeThreshold]
  · rw [solarizeLut, if_pos (show v < solarizeThreshold 0 by
      norm_num [solarizeThreshold]; linarith)]
  · rw [solarizeLut, if_neg (by norm_num [solarizeThreshold]; linarith)]
  · intro hle
    rw [solarizeLut, if_neg (not_lt.mpr hle)]
  · intro hlt
    rw [solarizeLut, if_pos hlt]
  · intro img yy xx ch
    rfl

/-- Claim C4 witness: the amended statement evaluated at magnitudes
`m = 3 ≤ m2 = 5` and channel value `v = 100`. -/
theorem solarize_threshold_spec_witness :
    solarizeThreshold 5 ≤ solarizeThreshold 3 ∧
    solarizeThreshold 0 = 256 ∧
    solarizeThreshold 9 = 0 ∧
    solarizeLut (solarizeThreshold 0) 100 = 100 ∧
    solarizeLut (solarizeThreshold 9) 100 = 255 - 100 ∧
    (solarizeThreshold 3 ≤ 100 → solarizeLut (solarizeThreshold 3) 100 = 255 - 100) ∧
    (100 < solarizeThreshold 3 → solarizeLut (solarizeThreshold 3) 100 = 100) ∧
    ∀ (img : Img) (yy xx : ℕ) (ch : Fin 3),
      (solarizeOp 3 img).pix yy xx ch
        = solarizeLut (solarizeThreshold 3) (img.pix yy xx ch) :=
  solarize_threshold_spec 3 5 100 (by norm_num) (by norm_num) (by norm_num)
    (by norm_num) (by norm_num)

/-! ### Claim C5 -/

/-- Claim C5: the mixing ratio drawn by `np.random.uniform(0.5, 1.0)` lies in
`[0.5, 1.0]`, and the mixed label `c_i * r + c_t * (1 - r)` of two one-hot
vectors of length `n` has entries summing to 1.0 within tolerance `1e-5`. -/
theorem mix_ratio_label_sum (u : ℚ) (i t n : ℕ)
    (hu0 : 0 ≤ u) (hu1 : u < 1) (hi : i < n) (ht : t < n) :
    1/2 ≤ mixRatio u ∧ mixRatio u ≤ 1 ∧
    |(mixLabels (mixRatio u) (toCategorical i n) (toCategorical t n)).sum - 1|
      ≤ 1 / 100000 := by
  have hsum : (mixLabels (mixRatio u) (toCategorical i n) (toCategorical t n)).sum = 1 := by
    rw [mixLabels_sum _ _ _ (by rw [toCategorical_length, toCategorical_length]),
        toCategorical_sum i n hi, toCategorical_sum t n ht]
    ring
  refine ⟨?_, ?_, ?_⟩
  · unfold mixRatio uniformDraw; linarith
  · unfold mixRatio uniformDraw; linarith
  · rw [hsum]; norm_num

/-- Claim C5 witness: the statement evaluated at `u = 1/3`, classes `0` and
`1` of a 2-class dataset. -/
theorem mix_ratio_label_sum_witness :
    1/2 ≤ mixRatio (1/3) ∧ mixRatio (1/3) ≤ 1 ∧
    |(mixLabels (mixRatio (1/3)) (toCategorical 0 2) (toCategorical 1 2)).sum - 1|
      ≤ 1 / 100000 :=
  mix_ratio_label_sum (1/3) 0 1 2 (by norm_num) (by norm_num) (by norm_num)
    (by norm_num)

/-! ### Claim C7 -/

/-- Claim C7 (counterexample): with unit draw `u = 3/4` the albumentations
cutout transform (default probability `p = 0.5`) does not fire, so a training
sample passes the normalization stage with no cutout at all: the output is
exactly the normalized image, whose channel values on a constant-255 input
are all 1 (no zeroed region). -/
theorem cutout_not_always_applied :
    aug2Train (3/4) 5 5 (constImg 331 331 255)
      = normalizeImg (constImg 331 331 255) ∧
    (normalizeImg (constImg 331 331 255)).pix 10 10 0 = 1 ∧
    (1 : ℚ) ≠ 0 := by
  refine ⟨?_, ?_, ?_⟩
  · rw [aug2Train, if_neg (by norm_num)]
  · norm_num [normalizeImg, constImg, normalizePix]
  · norm_num

/-- Claim C7 (amended): in training mode the normalization stage rescales
every channel to `(v/255 - 0.5)/0.5` and then applies the single cutout with
probability 0.5 (the albumentations default): when the unit draw is below
1/2, the 16×16 box around the drawn center, clipped to the image bounds, is
zeroed in all channels; otherwise the sample is left at its normalized
values.  In evaluation mode no cutout is ever applied. -/
theorem normalization_cutout_spec (u : ℚ) (cy cx : ℕ) (img : Img)
    (yy xx : ℕ) (ch : Fin 3) :
    (aug2Eval img).pix yy xx ch = (img.pix yy xx ch / 255 - 1/2) / (1/2) ∧
    (¬ u < 1/2 → aug2Train u cy cx img = normalizeImg img) ∧
    (u < 1/2 → aug2Train u cy cx img
       = cutoutImg (cutoutHole img.h img.w cy cx) (normalizeImg img)) ∧
    (cutoutHole img.h img.w cy cx).y2 ≤ img.h ∧
    (cutoutHole img.h img.w cy cx).x2 ≤ img.w ∧
    (u < 1/2 → inHole (cutoutHole img.h img.w cy cx) yy xx →
       (aug2Train u cy cx img).pix yy xx ch = 0) ∧
    (u < 1/2 → ¬ inHole (cutoutHole img.h img.w cy cx) yy xx →
       (aug2Train u cy cx img).pix yy xx ch = normalizePix (img.pix yy xx ch)) := by
  refine ⟨rfl, ?_, ?_, ?_, ?_, ?_, ?_⟩
  · intro hu; rw [aug2Train, if_neg hu]
  · intro hu; rw [aug2Train, if_pos hu]
  · exact min_le_right _ _
  · exact min_le_right _ _
  · intro hu hin
    rw [aug2Train, if_pos hu]
    exact if_pos hin
  · intro hu hin
    rw [aug2Train, if_pos hu]
    exact if_neg hin

/-- Claim C7 witness: the amended statement evaluated at a firing draw
`u = 1/4`, hole center `(100, 100)`, on a constant 331×331 image. -/
theorem normalization_cutout_spec_witness :
    (aug2Eval (constImg 331 331 255)).pix 100 100 0
      = ((constImg 331 331 255).pix 100 100 0 / 255 - 1/2) / (1/2) ∧
    (¬ (1/4 : ℚ) < 1/2 → aug2Train (1/4) 100 100 (constImg 331 331 255)
       = normalizeImg (constImg 331 331 255)) ∧
    ((1/4 : ℚ) < 1/2 → aug2Train (1/4) 100 100 (constImg 331 331 255)
       = cutoutImg (cutoutHole 331 331 100 100) (normalizeImg (constImg 331 331 255))) ∧
    (cutoutHole 331 331 100 100).y2 ≤ 331 ∧
    (cutoutHole 331 331 100 100).x2 ≤ 331 ∧
    ((1/4 : ℚ) < 1/2 → inHole (cutoutHole 331 331 100 100) 100 100 →
       (aug2Train (1/4) 100 100 (constImg 331 331 255)).pix 100 100 0 = 0) ∧
    ((1/4 : ℚ) < 1/2 → ¬ inHole (cutoutHole 331 331 100 100) 100 100 →
       (aug2Train (1/4) 100 100 (constImg 331 331 255)).pix 100 100 0
         = normalizePix ((constImg 331 331 255).pix 100 100 0)) :=
  normalization_cutout_spec (1/4) 100 100 (constImg 331 331 255) 100 100 0

/-! ### Claim C9 -/

lemma partnerSearch_isSome_exists (y : List ℕ) (yi : ℕ) (ts : ℕ → ℕ)
    (hts : ∀ k, ts k < y.length) :
    ∀ fuel k, (partnerSearch y yi ts k fuel).isSome → ∃ v ∈ y, v ≠ yi := by
  intro fuel
  induction fuel with
  | zero => intro k h; simp [partnerSearch] at h
  | succ fuel ih =>
    intro k h
    rw [partnerSearch] at h
    by_cases hc : y.getD (ts k) 0 ≠ yi
    · refine ⟨y.getD (ts k) 0, ?_, hc⟩
      rw [List.getD_eq_getElem y 0 (hts k)]
      exact List.getElem_mem _
    · rw [if_neg hc] at h
      exact ih (k + 1) h

/-- Claim C9: the between-class partner redraw loop of `_generate_instance`
can terminate (for some sequence of uniform draws and some iteration bound)
exactly when the dataset holds a label different from the primary label; in
particular, on a dataset where every label equals the primary label the loop
never exits, whatever the draws, and the training-mode per-sample pipeline
produces nothing. -/
theorem partner_search_terminates_iff (X : List Img) (y : List ℕ) (ncls yi : ℕ) :
    ((∃ v ∈ y, v ≠ yi) ↔
      ∃ ts : ℕ → ℕ, (∀ k, ts k < y.length) ∧
        ∃ fuel, (partnerSearch y yi ts 0 fuel).isSome) ∧
    ((∀ v ∈ y, v = yi) → ∀ ts : ℕ → ℕ, (∀ k, ts k < y.length) →
       ∀ k fuel, partnerSearch y yi ts k fuel = none) ∧
    (∀ (d : TrainDraws) (i : ℕ),
       partnerSearch y (y.getD i 0) d.ts 0 d.fuel = none →
       generateInstanceTrain X y ncls d i = none) := by
  refine ⟨⟨?_, ?_⟩, ?_, ?_⟩
  · rintro ⟨v, hv, hne⟩
    obtain ⟨idx, hidx, hget⟩ := List.mem_iff_getElem.mp hv
    refine ⟨fun _ => idx, fun _ => hidx, 1, ?_⟩
    rw [partnerSearch]
    have hdv : y.getD idx 0 = v := by rw [List.getD_eq_getElem y 0 hidx, hget]
    rw [if_pos (by rw [hdv]; exact hne)]
    rfl
  · rintro ⟨ts, hts, fuel, hsome⟩
    exact partnerSearch_isSome_exists y yi ts hts fuel 0 hsome
  · intro hall ts hts k fuel
    cases hits : partnerSearch y yi ts k fuel with
    | none => rfl
    | some t =>
        exfalso
        obtain ⟨v, hv, hne⟩ :=
          partnerSearch_isSome_exists y yi ts hts fuel k (by rw [hits]; rfl)
        exact hne (hall v hv)
  · intro d i hnone
    simp only [generateInstanceTrain, hnone]

/-- Claim C9 witness: on the dataset with labels `[0, 1]` and primary label
`0`, the equivalence and the never-returns statement instantiated. -/
theorem partner_search_terminates_iff_witness :
    ((∃ v ∈ [0, 1], v ≠ 0) ↔
      ∃ ts : ℕ → ℕ, (∀ k, ts k < [0, 1].length) ∧
        ∃ fuel, (partnerSearch [0, 1] 0 ts 0 fuel).isSome) ∧
    ((∀ v ∈ [0, 1], v = 0) → ∀ ts : ℕ → ℕ, (∀ k, ts k < [0, 1].length) →
       ∀ k fuel, partnerSearch [0, 1] 0 ts k fuel = none) ∧
    (∀ (d : TrainDraws) (i : ℕ),
       partnerSearch [0, 1] ([0, 1].getD i 0) d.ts 0 d.fuel = none →
       generateInstanceTrain [] [0, 1] 2 d i = none) :=
  partner_search_terminates_iff [] [0, 1] 2 0

/-! ### Claim C2 -/

lemma execStep_length (jobs : List (Unit → α)) (slots : List (Option α))
    (pos : ℕ) : (execStep jobs slots pos).length = slots.length := by
  unfold execStep
  cases jobs[pos]? <;> simp

lemma foldl_execStep_getElem? (jobs : List (Unit → α)) (sched : List ℕ) :
    ∀ (slots : List (Option α)), slots.length = jobs.length → ∀ (p : ℕ),
      (sched.foldl (execStep jobs) slots)[p]? =
        if p ∈ sched then
          match jobs[p]? with
          | some job => some (some (job ()))
          | none => slots[p]?
        else slots[p]? := by
  induction sched with
  | nil =>
      intro slots _ p
      rw [List.foldl_nil, if_neg (List.not_mem_nil p)]
  | cons q rest ih =>
      intro slots hlen p
      rw [List.foldl_cons]
      rw [ih (execStep jobs slots q) (by rw [execStep_length, hlen]) p]
      by_cases hq : p ∈ rest
      · rw [if_pos hq, if_pos (List.mem_cons_of_mem q hq)]
        cases hj : jobs[p]? with
        | some job => rfl
        | none =>
            unfold execStep
            cases hjq : jobs[q]? with
            | none => rfl
            | some jobq =>
                have hpq : q ≠ p := by
                  intro hEq
                  rw [hEq, hj] at hjq
                  exact Option.noConfusion hjq
                exact List.getElem?_set_ne hpq
      · rw [if_neg hq]
        by_cases hpq : p = q
        · subst hpq
          rw [if_pos (List.mem_cons_self p rest)]
          unfold execStep
          cases hj : jobs[p]? with
          | none => rfl
          | some job =>
              have hplt : p < slots.length := by
                rw [hlen]
                exact (List.getElem?_eq_some_iff.mp hj).1
              exact List.getElem?_set_self hplt
        · rw [if_neg (by
              intro hmem
              rcases List.mem_cons.mp hmem with h1 | h2
              · exact hpq h1
              · exact hq h2)]
          unfold execStep
          cases hjq : jobs[q]? with
          | none => rfl
          | some jobq => exact List.getElem?_set_ne (fun h => hpq h.symm)

lemma mapM_id_map_some (l : List α) : (l.map some).mapM id = some l := by
  induction l with
  | nil => rfl
  | cons a l ih => rw [List.map_cons, List.mapM_cons, ih]; rfl

lemma mapM_id_none_of_mem (l : List (Option α)) (h : (none : Option α) ∈ l) :
    l.mapM id = none := by
  induction l with
  | nil => simp at h
  | cons a l ih =>
      rcases List.mem_cons.mp h with h1 | h2
      · rw [← h1, List.mapM_cons]; rfl
      · cases a with
        | none => rw [List.mapM_cons]; rfl
        | some v => rw [List.mapM_cons, ih h2]; rfl

/-- Claim C2: whatever the completion order of the concurrent per-sample
jobs (any permutation of the job slots), `_generate_batch` returns the batch
whose row `k` is the pair computed from the k-th requested index; and the
call cannot return while any job of the batch is still outstanding. -/
theorem generate_batch_request_order (inst : ℕ → α) (bi sched : List ℕ) :
    (sched.Perm (List.range bi.length) →
       generateBatch inst bi sched = some (bi.map inst)) ∧
    (∀ p, p < bi.length → p ∉ sched → generateBatch inst bi sched = none) := by
  constructor
  · intro hperm
    unfold generateBatch runParallel
    have hfinal : (sched.foldl (execStep (bi.map (fun i => (fun _ : Unit => inst i))))
        (List.replicate (bi.map (fun i => (fun _ : Unit => inst i))).length none))
        = (bi.map inst).map some := by
      apply List.ext_getElem?
      intro p
      rw [foldl_execStep_getElem? _ _ _ (by simp) p]
      by_cases hp : p < bi.length
      · have hmem : p ∈ sched := hperm.mem_iff.mpr (List.mem_range.mpr hp)
        rw [if_pos hmem]
        simp only [List.getElem?_map, List.getElem?_eq_getElem hp]
        rfl
      · have hnmem : p ∉ sched := by
          intro hmem
          exact hp (List.mem_range.mp (hperm.mem_iff.mp hmem))
        rw [if_neg hnmem, List.getElem?_map, List.getElem?_map]
        rw [List.getElem?_replicate, if_neg (by simpa using hp),
            List.getElem?_eq_none (by simpa using hp)]
        rfl
    rw [hfinal, mapM_id_map_some]
  · intro p hp hnmem
    unfold generateBatch runParallel
    apply mapM_id_none_of_mem
    have : (sched.foldl (execStep (bi.map (fun i => (fun _ : Unit => inst i))))
        (List.replicate (bi.map (fun i => (fun _ : Unit => inst i))).length none))[p]?
        = some none := by
      rw [foldl_execStep_getElem? _ _ _ (by simp) p, if_neg hnmem,
          List.getElem?_replicate, if_pos (by simpa using hp)]
    exact List.getElem?_mem this

/-- Claim C2 witness: the spec scenario — index list `[5, 2, 8, 1]` with
completion order `[3, 1, 0, 2]` (differing from request order) yields the
batch `[5, 2, 8, 1].map inst` in request order; and with the completion of
slot 0 missing the call does not return. -/
theorem generate_batch_request_order_witness :
    generateBatch (fun i => 10 * i) [5, 2, 8, 1] [3, 1, 0, 2]
      = some ([5, 2, 8, 1].map (fun i => 10 * i)) ∧
    generateBatch (fun i => 10 * i) [5, 2, 8, 1] [3, 1, 2] = none := by
  constructor
  · exact (generate_batch_request_order (fun i => 10 * i) [5, 2, 8, 1]
      [3, 1, 0, 2]).1 (by decide)
  · exact (generate_batch_request_order (fun i => 10 * i) [5, 2, 8, 1]
      [3, 1, 2]).2 0 (by decide) (by decide)

/-! ### Claim C8 -/

lemma generateInstanceEvalE_undecodable (files : List (Option SrcImage))
    (y : List ℕ) (ncls i : ℕ) (h : files.getD i none = none) :
    generateInstanceEvalE files y ncls i = Except.error LoadError.decodeError := by
  simp only [generateInstanceEvalE, h, loadImage]

lemma generateBatchEvalE_error (files : List (Option SrcImage)) (y : List ℕ)
    (ncls : ℕ) :
    ∀ (bi : List ℕ) (i : ℕ), i ∈ bi → files.getD i none = none →
      generateBatchEvalE files y ncls bi = Except.error LoadError.decodeError := by
  intro bi
  induction bi with
  | nil => intro i hi; exact absurd hi (List.not_mem_nil i)
  | cons a l ih =>
      intro i hi hnone
      rw [generateBatchEvalE, List.mapM_cons]
      rcases List.mem_cons.mp hi with h1 | h2
      · subst h1
        rw [generateInstanceEvalE_undecodable files y ncls i hnone]
        rfl
      · cases hfa : generateInstanceEvalE files y ncls a with
        | error e => cases e; rfl
        | ok b =>
            have hres := ih i h2 hnone
            rw [generateBatchEvalE] at hres
            show (l.mapM (generateInstanceEvalE files y ncls) >>= fun bs =>
              pure (b :: bs)) = Except.error LoadError.decodeError
            rw [hres]
            rfl

/-- Claim C8: a decodable file whose mode is not RGB loads successfully and
is coerced to RGB (`img.convert('RGB')` — no error); only an undecodable
file makes `_load_image` fail, and that failure propagates through the
per-sample job to the whole `_generate_batch` call. -/
theorem load_image_error_handling (files : List (Option SrcImage)) (y : List ℕ)
    (ncls : ℕ) (bi : List ℕ) (i : ℕ) :
    (∀ img : SrcImage, files.getD i none = some img →
       loadImage (files.getD i none)
         = Except.ok (if img.mode ≠ PILMode.rgb then convertRGB img else img) ∧
       (if img.mode ≠ PILMode.rgb then convertRGB img else img).mode = PILMode.rgb ∧
       ∃ out, generateInstanceEvalE files y ncls i = Except.ok out) ∧
    (files.getD i none = none →
       loadImage (files.getD i none) = Except.error LoadError.decodeError) ∧
    (i ∈ bi → files.getD i none = none →
       generateBatchEvalE files y ncls bi = Except.error LoadError.decodeError) := by
  refine ⟨?_, ?_, ?_⟩
  · intro img himg
    refine ⟨by rw [himg]; rfl, ?_, ?_⟩
    · by_cases hm : img.mode = PILMode.rgb
      · rw [if_neg (by simpa using hm)]
        exact hm
      · rw [if_pos hm]
        rfl
    · refine ⟨(aug2Eval (aug1Eval (toImg
        (if img.mode ≠ PILMode.rgb then convertRGB img else img))),
        toCategorical (y.getD i 0) ncls), ?_⟩
      simp only [generateInstanceEvalE, himg, loadImage]
  · intro h; rw [h]; rfl
  · exact generateBatchEvalE_error files y ncls bi i

/-- Claim C8 witness: a grayscale (mode L) file at index 0 loads and is
coerced to RGB; the undecodable file at index 1 fails the load and aborts the
whole batch `[1]`. -/
theorem load_image_error_handling_witness :
    ((∀ img : SrcImage,
       [some (SrcImage.mk PILMode.l 2 2 (fun _ _ _ => 7)), none].getD 0 none = some img →
       loadImage ([some (SrcImage.mk PILMode.l 2 2 (fun _ _ _ => 7)), none].getD 0 none)
         = Except.ok (if img.mode ≠ PILMode.rgb then convertRGB img else img) ∧
       (if img.mode ≠ PILMode.rgb then convertRGB img else img).mode = PILMode.rgb ∧
       ∃ out, generateInstanceEvalE
         [some (SrcImage.mk PILMode.l 2 2 (fun _ _ _ => 7)), none] [0, 1] 2 0
           = Except.ok out)) ∧
    ((1 : ℕ) ∈ [1] →
       [some (SrcImage.mk PILMode.l 2 2 (fun _ _ _ => 7)), none].getD 1 none = none →
       generateBatchEvalE [some (SrcImage.mk PILMode.l 2 2 (fun _ _ _ => 7)), none]
         [0, 1] 2 [1] = Except.error LoadError.decodeError) :=
  ⟨(load_image_error_handling
      [some (SrcImage.mk PILMode.l 2 2 (fun _ _ _ => 7)), none] [0, 1] 2 [1] 0).1,
   (load_image_error_handling
      [some (SrcImage.mk PILMode.l 2 2 (fun _ _ _ => 7)), none] [0, 1] 2 [1] 1).2.2⟩

/-! ### Claim C6 -/

/-- The permutation of the index array realized by the first `m` in-place
shuffles. -/
def permUpTo (n : ℕ) (c : ℕ → ℕ → ℕ) : ℕ → Equiv.Perm (Fin n)
  | 0 => 1
  | m + 1 => permUpTo n c m * fisherYatesPerm n (c m)

lemma arrAfter_eq_permUpTo (n : ℕ) (c : ℕ → ℕ → ℕ) :
    ∀ (m : ℕ) (i : Fin n), arrAfter n c m i = ((permUpTo n c m) i : ℕ) := by
  intro m
  induction m with
  | zero => intro i; rfl
  | succ m ih =>
      intro i
      show arrAfter n c m ((fisherYatesPerm n (c m)) i) = _
      rw [ih (fisherYatesPerm n (c m) i), permUpTo]
      rfl

lemma generateShuffledIndices_lt (n : ℕ) (c : ℕ → ℕ → ℕ) (h : 0 < n) (k : ℕ) :
    generateShuffledIndices n c k < n := by
  rw [generateShuffledIndices, dif_pos h, arrAfter_eq_permUpTo]
  exact ((permUpTo n c (k / n + 1)) ⟨k % n, Nat.mod_lt k h⟩).isLt

lemma generateShuffledIndices_block_eq (n : ℕ) (c : ℕ → ℕ → ℕ) (h : 0 < n)
    (j : ℕ) (i : Fin n) :
    generateShuffledIndices n c (j * n + i.val) = ((permUpTo n c (j + 1)) i : ℕ) := by
  rw [generateShuffledIndices, dif_pos h]
  have h1 : (j * n + i.val) / n = j := by
    rw [mul_comm, Nat.mul_add_div h, Nat.div_eq_of_lt i.isLt, add_zero]
  have h2 : (j * n + i.val) % n = i.val := by
    rw [mul_comm, Nat.mul_add_mod, Nat.mod_eq_of_lt i.isLt]
  simp only [h1, h2, arrAfter_eq_permUpTo, Fin.eta]

lemma blockIndices_perm (n : ℕ) (c : ℕ → ℕ → ℕ) (h : 0 < n) (j : ℕ) :
    (blockIndices n c j).Perm (List.range n) := by
  have heq : blockIndices n c j
      = (List.finRange n).map (Fin.val ∘ (permUpTo n c (j + 1))) := by
    rw [blockIndices, ← List.map_coe_finRange, List.map_map]
    exact List.map_congr_left
      (fun i _ => generateShuffledIndices_block_eq n c h j i)
  rw [heq, ← List.map_map]
  exact (((permUpTo n c (j + 1)).map_finRange_perm).map Fin.val).trans
    (by rw [List.map_coe_finRange])

lemma firstIndices_eq_block (n : ℕ) (c : ℕ → ℕ → ℕ) :
    firstIndices n c = blockIndices n c 0 := by
  rw [firstIndices, blockIndices]
  exact List.map_congr_left (fun t _ => by rw [zero_mul, zero_add])

/-- Claim C6: for every dataset size `N ≥ 1` and every sequence of shuffle
draws, the first `N` indices of `_generate_shuffled_indices` are a
permutation of `[0, N)`; the stream is total (the k-th index exists for
every `k` and is a valid dataset index); and every aligned block of `N`
consecutive draws is again a permutation of `[0, N)`. -/
theorem shuffled_index_stream_spec (n : ℕ) (c : ℕ → ℕ → ℕ) (h : 0 < n)
    (j k : ℕ) :
    (firstIndices n c).Perm (List.range n) ∧
    generateShuffledIndices n c k < n ∧
    (blockIndices n c j).Perm (List.range n) := by
  refine ⟨?_, generateShuffledIndices_lt n c h k, blockIndices_perm n c h j⟩
  rw [firstIndices_eq_block]
  exact blockIndices_perm n c h 0

/-- Claim C6 witness: the stream over `N = 3` with a concrete draw
sequence, block 1 and draw 7. -/
theorem shuffled_index_stream_spec_witness :
    (firstIndices 3 (fun j i => j + 2 * i)).Perm (List.range 3) ∧
    generateShuffledIndices 3 (fun j i => j + 2 * i) 7 < 3 ∧
    (blockIndices 3 (fun j i => j + 2 * i) 1).Perm (List.range 3) :=
  shuffled_index_stream_spec 3 (fun j i => j + 2 * i) (by norm_num) 1 7

/-! ### Claim C10 -/

lemma collectBatch_spec (s : ℕ → ℕ) (B : ℕ) :
    ∀ (m : ℕ), 0 < m → ∀ (p : ℕ) (acc : List ℕ), acc.length + m = B →
      ∀ fuel, m ≤ fuel →
        collectBatch s B p acc fuel
          = some (acc ++ (List.range m).map (fun t => s (p + t)), p + m) := by
  intro m
  induction m with
  | zero => intro h; exact absurd h (lt_irrefl 0)
  | succ m ih =>
      intro _ p acc hlen fuel hfuel
      obtain ⟨fuel2, rfl⟩ : ∃ f, fuel = f + 1 := ⟨fuel - 1, by omega⟩
      rw [collectBatch]
      by_cases hm : m = 0
      · subst hm
        rw [if_pos (by simp only [List.length_append, List.length_cons,
            List.length_nil]; omega)]
        rw [show List.range 1 = [0] from rfl]
        simp
      · rw [if_neg (by simp only [List.length_append, List.length_cons,
            List.length_nil]; omega)]
        rw [ih (by omega) (p + 1) (acc ++ [s p])
          (by simp only [List.length_append, List.length_cons, List.length_nil]; omega)
          fuel2 (by omega)]
        rw [List.append_assoc]
        have hlist : [s p] ++ (List.range m).map (fun t => s (p + 1 + t))
            = (List.range (m + 1)).map (fun t => s (p + t)) := by
          rw [List.range_succ_eq_map, List.map_cons, List.map_map,
            List.singleton_append]
          congr 1
          exact List.map_congr_left (fun t _ => congrArg s (by omega))
        rw [hlist, Nat.add_assoc, Nat.add_comm 1 m]

lemma nthShuffledBatch_spec (s : ℕ → ℕ) (B : ℕ) (hB : 0 < B) :
    ∀ j, nthShuffledBatch s B j
      = some ((List.range B).map (fun t => s (j * B + t)), (j + 1) * B) := by
  intro j
  induction j with
  | zero =>
      rw [nthShuffledBatch,
        collectBatch_spec s B B hB 0 [] (by simp) B le_rfl]
      simp [Nat.one_mul]
  | succ j ih =>
      rw [nthShuffledBatch, ih]
      show collectBatch s B ((j + 1) * B) [] B = _
      rw [collectBatch_spec s B B hB ((j + 1) * B) [] (by simp) B le_rfl,
        List.nil_append]
      have h3 : (j + 1) * B + B = (j + 1 + 1) * B := by ring
      rw [h3]

lemma mapM_option_length (f : α → Option β) :
    ∀ (l : List α) (l2 : List β), l.mapM f = some l2 → l2.length = l.length := by
  intro l
  induction l with
  | nil =>
      intro l2 h
      simp only [List.mapM_nil, pure, Option.some.injEq] at h
      rw [← h]
      rfl
  | cons a l ih =>
      intro l2 h
      rw [List.mapM_cons] at h
      cases hfa : f a with
      | none => rw [hfa] at h; simp at h
      | some b =>
          rw [hfa] at h
          cases hml : l.mapM f with
          | none => rw [hml] at h; simp at h
          | some bs =>
              rw [hml] at h
              simp only [Option.bind_eq_bind, Option.some_bind, pure,
                Option.some.injEq] at h
              rw [← h, List.length_cons, ih bs hml, List.length_cons]

/-- Claim C10: in shuffled mode, for every dataset size `N ≥ 1` and every
positive batch size `B`, every yielded index list holds exactly `B` valid
indices (accumulated across reshuffle boundaries — no partial batch), and a
yielded training batch has exactly `B` rows. -/
theorem shuffled_batches_full (n B j : ℕ) (c : ℕ → ℕ → ℕ) (X : List Img)
    (y : List ℕ) (ncls : ℕ) (d : ℕ → TrainDraws) (hn : 0 < n) (hB : 0 < B)
    (hX : X.length = n) :
    (∃ l pos, nthShuffledBatch (generateShuffledIndices n c) B j = some (l, pos) ∧
       l.length = B ∧ ∀ i ∈ l, i < n) ∧
    (∀ rows, shuffledTrainBatch X y ncls B c d j = some rows → rows.length = B) := by
  constructor
  · refine ⟨_, _, nthShuffledBatch_spec (generateShuffledIndices n c) B hB j,
      by simp, ?_⟩
    intro i hi
    obtain ⟨t, _, rfl⟩ := List.mem_map.mp hi
    exact generateShuffledIndices_lt n c hn _
  · intro rows hrows
    rw [shuffledTrainBatch, hX,
      nthShuffledBatch_spec (generateShuffledIndices n c) B hB j] at hrows
    rw [mapM_option_length _ _ rows hrows, List.length_map, List.length_range]

/-- Claim C10 witness: dataset size 3, batch size 2, batch 1, with concrete
draws; the partner-search stream of every sample points at a
different-labelled sample so the training rows materialize. -/
theorem shuffled_batches_full_witness :
    (∃ l pos, nthShuffledBatch (generateShuffledIndices 3 (fun j i => j + 2 * i)) 2 1
        = some (l, pos) ∧ l.length = 2 ∧ ∀ i ∈ l, i < 3) ∧
    (∀ rows, shuffledTrainBatch (List.replicate 3 default) [0, 1, 0] 2 2
        (fun j i => j + 2 * i)
        (fun _ => TrainDraws.mk id 300 0 0 false id 300 0 0 false (fun _ => 1) 1
          (1/4) (3/4) 5 5) 1 = some rows → rows.length = 2) :=
  shuffled_batches_full 3 2 1 (fun j i => j + 2 * i) (List.replicate 3 default)
    [0, 1, 0] 2
    (fun _ => TrainDraws.mk id 300 0 0 false id 300 0 0 false (fun _ => 1) 1
      (1/4) (3/4) 5 5)
    (by norm_num) (by norm_num) (by simp)

/-! ### Claim C1 -/

lemma aug1Train_h (pol : Img → Img) (s y0 x0 : ℕ) (flip : Bool) (img : Img) :
    (aug1Train pol s y0 x0 flip img).h = 331 := by
  rw [aug1Train]; cases flip <;> rfl

lemma aug1Train_w (pol : Img → Img) (s y0 x0 : ℕ) (flip : Bool) (img : Img) :
    (aug1Train pol s y0 x0 flip img).w = 331 := by
  rw [aug1Train]; cases flip <;> rfl

lemma aug2Train_h (u : ℚ) (cy cx : ℕ) (img : Img) :
    (aug2Train u cy cx img).h = img.h := by
  rw [aug2Train]; split <;> rfl

lemma aug2Train_w (u : ℚ) (cy cx : ℕ) (img : Img) :
    (aug2Train u cy cx img).w = img.w := by
  rw [aug2Train]; split <;> rfl

lemma mixLabels_length (r : ℚ) (a b : List ℚ) :
    (mixLabels r a b).length = min a.length b.length :=
  List.length_zipWith _ _ _

lemma generateInstanceTrain_shape (X : List Img) (y : List ℕ) (ncls : ℕ)
    (d : TrainDraws) (i : ℕ) (out : Img × List ℚ)
    (h : generateInstanceTrain X y ncls d i = some out) :
    out.1.h = 331 ∧ out.1.w = 331 ∧ out.2.length = ncls := by
  rw [generateInstanceTrain] at h
  cases hps : partnerSearch y (y.getD i 0) d.ts 0 d.fuel with
  | none => rw [hps] at h; simp at h
  | some t =>
      rw [hps] at h
      simp only [Option.some.injEq] at h
      rw [← h]
      refine ⟨?_, ?_, ?_⟩
      · rw [aug2Train_h]
        show (aug1Train d.pol d.s d.y0 d.x0 d.flip (X.getD i default)).h = 331
        exact aug1Train_h _ _ _ _ _ _
      · rw [aug2Train_w]
        show (aug1Train d.pol d.s d.y0 d.x0 d.flip (X.getD i default)).w = 331
        exact aug1Train_w _ _ _ _ _ _
      · show (mixLabels _ (toCategorical (y.getD i 0) ncls)
          (toCategorical (y.getD t 0) ncls)).length = ncls
        rw [mixLabels_length, toCategorical_length, toCategorical_length, min_self]

lemma mapM_option_mem (f : α → Option β) :
    ∀ (l : List α) (l2 : List β), l.mapM f = some l2 →
      ∀ b ∈ l2, ∃ a ∈ l, f a = some b := by
  intro l
  induction l with
  | nil =>
      intro l2 h b hb
      simp only [List.mapM_nil, pure, Option.some.injEq] at h
      rw [← h] at hb
      exact absurd hb (List.not_mem_nil b)
  | cons a l ih =>
      intro l2 h b hb
      rw [List.mapM_cons] at h
      cases hfa : f a with
      | none => rw [hfa] at h; simp at h
      | some fa =>
          rw [hfa] at h
          cases hml : l.mapM f with
          | none => rw [hml] at h; simp at h
          | some bs =>
              rw [hml] at h
              simp only [Option.bind_eq_bind, Option.some_bind, pure,
                Option.some.injEq] at h
              rw [← h] at hb
              rcases List.mem_cons.mp hb with h1 | h2
              · exact ⟨a, List.mem_cons_self a l, by rw [hfa, h1]⟩
              · obtain ⟨a2, ha2, hfa2⟩ := ih bs hml b h2
                exact ⟨a2, List.mem_cons_of_mem a ha2, hfa2⟩

lemma numBatchesSeq_of_mod_ne (N B : ℕ) (hB : 0 < B) (h : N % B ≠ 0) :
    numBatchesSeq N B = N / B + 1 := by
  have hq := Nat.div_add_mod N B
  have hrlt : N % B < B := Nat.mod_lt N hB
  have h1 : N + B - 1 = B * (N / B + 1) + (N % B - 1) := by
    rw [Nat.mul_add, Nat.mul_one]
    omega
  have h2 : (N % B - 1) / B = 0 := Nat.div_eq_of_lt (by omega)
  rw [numBatchesSeq, h1, Nat.mul_add_div hB, h2, add_zero]

lemma numBatchesSeq_of_dvd (N B : ℕ) (hB : 0 < B) (h : N % B = 0) :
    numBatchesSeq N B = N / B := by
  have hq := Nat.div_add_mod N B
  have h1 : N + B - 1 = B * (N / B) + (B - 1) := by omega
  have h2 : (B - 1) / B = 0 := Nat.div_eq_of_lt (by omega)
  rw [numBatchesSeq, h1, Nat.mul_add_div hB, h2, add_zero]

lemma seqBatch_length (X : List Img) (y : List ℕ) (ncls B j : ℕ) :
    (seqBatch X y ncls B j).length
      = min (j % numBatchesSeq X.length B * B + B) X.length
          - j % numBatchesSeq X.length B * B := by
  rw [seqBatch, List.length_map, seqBatchIndices, List.length_range']

lemma seq_tail_length (N B : ℕ) (hB : 0 < B) (hN : 0 < N) (hndvd : ¬ B ∣ N) :
    min ((numBatchesSeq N B - 1) * B + B) N - (numBatchesSeq N B - 1) * B
      = N % B := by
  have hq := Nat.div_add_mod N B
  have hrlt : N % B < B := Nat.mod_lt N hB
  have hrne : N % B ≠ 0 := fun hm => hndvd (Nat.dvd_of_mod_eq_zero hm)
  have hnb : numBatchesSeq N B = N / B + 1 := numBatchesSeq_of_mod_ne N B hB hrne
  have hA : (numBatchesSeq N B - 1) * B = B * (N / B) := by
    rw [hnb, Nat.add_sub_cancel, Nat.mul_comm]
  rw [hA, min_eq_right (by omega)]
  omega

lemma seq_full_length (N B j : ℕ) (hB : 0 < B) (hN : 0 < N)
    (h : j % numBatchesSeq N B ≠ numBatchesSeq N B - 1 ∨ B ∣ N) :
    min (j % numBatchesSeq N B * B + B) N - j % numBatchesSeq N B * B = B := by
  have hk1 : j % numBatchesSeq N B + 1 ≤ N / B := by
    by_cases hd : B ∣ N
    · have hmod : N % B = 0 := Nat.mod_eq_zero_of_dvd hd
      have hnb : numBatchesSeq N B = N / B := numBatchesSeq_of_dvd N B hB hmod
      have hqpos : 0 < N / B := Nat.div_pos (Nat.le_of_dvd hN hd) hB
      have hklt : j % numBatchesSeq N B < numBatchesSeq N B :=
        Nat.mod_lt j (by rw [hnb]; exact hqpos)
      rw [← hnb]
      exact Nat.succ_le_of_lt hklt
    · have hmod : N % B ≠ 0 := fun hm => hd (Nat.dvd_of_mod_eq_zero hm)
      have hnb : numBatchesSeq N B = N / B + 1 := numBatchesSeq_of_mod_ne N B hB hmod
      have hne : j % numBatchesSeq N B ≠ numBatchesSeq N B - 1 := h.resolve_right hd
      have hklt : j % numBatchesSeq N B < numBatchesSeq N B :=
        Nat.mod_lt j (by rw [hnb]; exact Nat.succ_pos _)
      have h4 : j % numBatchesSeq N B + 1 ≤ numBatchesSeq N B - 1 := by
        revert hklt hne
        generalize j % numBatchesSeq N B = k
        generalize numBatchesSeq N B = nb
        intro hklt hne
        omega
      have h5 : numBatchesSeq N B - 1 = N / B := by rw [hnb, Nat.add_sub_cancel]
      rw [← h5]
      exact h4
  have h2 : (j % numBatchesSeq N B + 1) * B ≤ N / B * B :=
    Nat.mul_le_mul_right B hk1
  have h3 : N / B * B ≤ N := Nat.div_mul_le_self N B
  have hle : j % numBatchesSeq N B * B + B ≤ N := by
    calc j % numBatchesSeq N B * B + B
        = (j % numBatchesSeq N B + 1) * B := by ring
      _ ≤ N / B * B := h2
      _ ≤ N := h3
  rw [min_eq_left hle]
  omega

/-- Claim C1 (counterexample): with `N = 5` samples, `batch_size = 2`,
sequential iteration, the third batch (the tail range `range(4, 5)`) has 1
row, not `batch_size = 2`. -/
theorem seq_tail_batch_counterexample :
    (seqBatch (List.replicate 5 default) [0, 0, 0, 0, 0] 2 2 2).length = 1 ∧
    (1 : ℕ) ≠ 2 := by
  constructor
  · rfl
  · norm_num

/-- Claim C1 (amended): a yielded batch stacks one 331×331×3 image row and
one `num_classes`-length label row per requested index, and the number of
rows equals the size of the index list: in sequential mode that is
`min(i + B, N) - i` for the range starting at `i` — `B` for every non-tail
range (and for all ranges when `B ∣ N`), but `N mod B` for the tail range
when `B` does not divide `N`; in shuffled mode every yielded batch has
exactly `B` rows. -/
theorem next_batch_shape_spec (X : List Img) (y : List ℕ) (ncls B j : ℕ)
    (c : ℕ → ℕ → ℕ) (d : ℕ → TrainDraws) (hB : 0 < B) (hN : 0 < X.length) :
    (seqBatch X y ncls B j).length
      = min (j % numBatchesSeq X.length B * B + B) X.length
          - j % numBatchesSeq X.length B * B ∧
    (¬ B ∣ X.length →
       j % numBatchesSeq X.length B = numBatchesSeq X.length B - 1 →
       (seqBatch X y ncls B j).length = X.length % B) ∧
    (j % numBatchesSeq X.length B ≠ numBatchesSeq X.length B - 1 ∨ B ∣ X.length →
       (seqBatch X y ncls B j).length = B) ∧
    (∀ s ∈ seqBatch X y ncls B j,
       s.1.h = 331 ∧ s.1.w = 331 ∧ s.2.length = ncls) ∧
    (∀ rows, shuffledTrainBatch X y ncls B c d j = some rows →
       rows.length = B ∧
       ∀ s ∈ rows, s.1.h = 331 ∧ s.1.w = 331 ∧ s.2.length = ncls) := by
  refine ⟨seqBatch_length X y ncls B j, ?_, ?_, ?_, ?_⟩
  · intro hndvd hj
    rw [seqBatch_length, hj]
    exact seq_tail_length X.length B hB hN hndvd
  · intro h
    rw [seqBatch_length]
    exact seq_full_length X.length B j hB hN h
  · intro s hs
    obtain ⟨idx, _, rfl⟩ := List.mem_map.mp hs
    exact ⟨rfl, rfl, toCategorical_length _ _⟩
  · intro rows hrows
    rw [shuffledTrainBatch,
      nthShuffledBatch_spec (generateShuffledIndices X.length c) B hB j] at hrows
    constructor
    · rw [mapM_option_length _ _ rows hrows, List.length_map, List.length_range]
    · intro s hs
      obtain ⟨a, _, hfa⟩ := mapM_option_mem _ _ rows hrows s hs
      exact generateInstanceTrain_shape X y ncls (d a) a s hfa

/-- Claim C1 witness: the amended statement on a 5-sample dataset with
batch size 2, batch index 2, concrete shuffle draws and training draws. -/
theorem next_batch_shape_spec_witness :
    (seqBatch (List.replicate 5 default) [0, 1, 0, 1, 0] 2 2 2).length
      = min (2 % numBatchesSeq (List.replicate 5 (default : Img)).length 2 * 2 + 2)
          (List.replicate 5 (default : Img)).length
          - 2 % numBatchesSeq (List.replicate 5 (default : Img)).length 2 * 2 ∧
    (¬ 2 ∣ (List.replicate 5 (default : Img)).length →
       2 % numBatchesSeq (List.replicate 5 (default : Img)).length 2
         = numBatchesSeq (List.replicate 5 (default : Img)).length 2 - 1 →
       (seqBatch (List.replicate 5 default) [0, 1, 0, 1, 0] 2 2 2).length
         = (List.replicate 5 (default : Img)).length % 2) ∧
    (2 % numBatchesSeq (List.replicate 5 (default : Img)).length 2
         ≠ numBatchesSeq (List.replicate 5 (default : Img)).length 2 - 1 ∨
       2 ∣ (List.replicate 5 (default : Img)).length →
       (seqBatch (List.replicate 5 default) [0, 1, 0, 1, 0] 2 2 2).length = 2) ∧
    (∀ s ∈ seqBatch (List.replicate 5 default) [0, 1, 0, 1, 0] 2 2 2,
       s.1.h = 331 ∧ s.1.w = 331 ∧ s.2.length = 2) ∧
    (∀ rows, shuffledTrainBatch (List.replicate 5 default) [0, 1, 0, 1, 0] 2 2
        (fun a b => a + 2 * b)
        (fun _ => TrainDraws.mk id 300 0 0 false id 300 0 0 false (fun _ => 1) 1
          (1/4) (3/4) 5 5) 2 = some rows →
       rows.length = 2 ∧
       ∀ s ∈ rows, s.1.h = 331 ∧ s.1.w = 331 ∧ s.2.length = 2) :=
  next_batch_shape_spec (List.replicate 5 default) [0, 1, 0, 1, 0] 2 2 2
    (fun a b => a + 2 * b)
    (fun _ => TrainDraws.mk id 300 0 0 false id 300 0 0 false (fun _ => 1) 1
      (1/4) (3/4) 5 5)
    (by norm_num) (by simp)

end ImagenetteTrain
